import Mathlib

/-!
Shallow embedding of the HttpClientCLI request-construction pipeline
(src/main.rs): the header-token parser, the header-map construction, the
URL normalizer, the POST/PUT request builders and the response presenter,
together with theorems settling the specification claims about them.
-/

namespace HttpClientCLI

/-! ## Header parser (src/main.rs, fn parse_key_val)

Rust: `s.splitn(2, '=')`, bail when fewer than two parts, otherwise return
the pair of the two parts.  `splitn(2, '=')` yields one part when the token
holds no `=` and otherwise the prefix before the first `=` and the whole
remainder after it; we embed that split directly on the character list. -/

/-- The split performed by `s.splitn(2, '=')`: `none` when no `=` occurs,
otherwise the characters before the first `=` and all characters after it. -/
def splitFirstEq : List Char → Option (List Char × List Char)
  | [] => none
  | c :: cs =>
    if c = '=' then some ([], cs)
    else
      match splitFirstEq cs with
      | some (k, v) => some (c :: k, v)
      | none => none

/-- Embedding of `parse_key_val`: split the token on the first `=`; with no
`=` present fail with the usage message, otherwise return the pair. -/
def parse_key_val (s : String) : Except String (String × String) :=
  match splitFirstEq s.toList with
  | some (k, v) => Except.ok (String.mk k, String.mk v)
  | none => Except.error "Формат заголовка: ключ=значение"

lemma splitFirstEq_eq_none_iff (cs : List Char) :
    splitFirstEq cs = none ↔ '=' ∉ cs := by
  induction cs with
  | nil => simp [splitFirstEq]
  | cons c cs ih =>
    by_cases hc : c = '='
    · subst hc; simp [splitFirstEq]
    · rw [List.mem_cons]
      cases h : splitFirstEq cs with
      | none =>
        simp only [splitFirstEq, if_neg hc, h]
        constructor
        · intro _ hmem
          rcases hmem with h1 | h2
          · exact hc h1.symm
          · exact (ih.mp h) h2
        · intro _; trivial
      | some kv =>
        simp only [splitFirstEq, if_neg hc, h]
        constructor
        · intro hfalse; exact absurd hfalse (by simp)
        · intro hmem
          exfalso
          have : '=' ∈ cs := by
            by_contra hnot
            rw [← ih] at hnot
            rw [hnot] at h
            cases h
          exact hmem (Or.inr this)

lemma splitFirstEq_append (a b : List Char) (ha : '=' ∉ a) :
    splitFirstEq (a ++ '=' :: b) = some (a, b) := by
  induction a with
  | nil => simp [splitFirstEq]
  | cons c a ih =>
    have hc : c ≠ '=' := fun h => ha (h ▸ List.mem_cons_self c a)
    have ha' : '=' ∉ a := fun h => ha (List.mem_cons_of_mem c h)
    simp [splitFirstEq, hc, ih ha']

/-! ## URL normalizer (src/main.rs, fn ensure_url_prefix)

Rust: `url.starts_with("http://") || url.starts_with("https://")` keeps the
string, otherwise `format!("http://{}", url)`.  `starts_with` on these ASCII
literals is exactly character-list prefixing. -/

/-- Embedding of `ensure_url_prefix`. -/
def ensure_url_prefix (url : String) : String :=
  if "http://".toList.isPrefixOf url.toList || "https://".toList.isPrefixOf url.toList then
    url
  else
    "http://" ++ url

lemma isPrefixOf_append_self (a b : List Char) : a.isPrefixOf (a ++ b) = true := by
  induction a with
  | nil => simp [List.isPrefixOf]
  | cons c a ih => simp [List.isPrefixOf, ih]

lemma http_isPrefixOf_http_append (s : String) :
    "http://".toList.isPrefixOf ("http://" ++ s).toList = true := by
  have h : ("http://" ++ s).toList = "http://".toList ++ s.toList := by
    simp [String.toList, String.data_append]
  rw [h]
  exact isPrefixOf_append_self _ _

lemma isPrefixOf_append_take (l p t : List Char) (h : l.isPrefixOf (p ++ t) = true)
    (hle : l.length ≤ p.length) : l = p.take l.length := by
  have h1 : l <+: p ++ t := List.isPrefixOf_iff_prefix.mp h
  have h2 : l <+: p := List.prefix_of_prefix_length_le h1 (List.prefix_append p t) hle
  exact List.prefix_iff_eq_take.mp h2

lemma append_left_eq_take (l p t : List Char) (h : l.isPrefixOf (p ++ t) = true)
    (hle : p.length ≤ l.length) : p = l.take p.length := by
  have h1 : l <+: p ++ t := List.isPrefixOf_iff_prefix.mp h
  have h2 : p <+: l := List.prefix_of_prefix_length_le (List.prefix_append p t) h1 hle
  exact List.prefix_iff_eq_take.mp h2

/-! ## Header-map construction (src/main.rs, fn build_headers)

Rust: fold over the parsed `(key, value)` pairs; a pair is inserted into the
`HeaderMap` only when `HeaderName::from_bytes(key)` and
`HeaderValue::from_str(value)` both succeed, and `HeaderMap::insert`
overwrites any earlier value stored under the same name.  The header
collection is modelled, per the specification's data model, as a
name-to-value mapping with unique keys (an association list where insertion
removes any earlier binding of the name); the encoding checks follow the
HTTP token rules: a name is non-empty, made of token characters, with
uppercase letters lowered; a value may hold any visible byte, space or tab. -/

/-- Encoding of one header-name character as in `HeaderName::from_bytes`:
uppercase ASCII letters are mapped to lowercase; lowercase letters, digits
and the other token characters (codes 33, 35, 36, 37, 38, 39, 42, 43, 45,
46, 94, 95, 96, 124, 126) are kept; anything else is invalid. -/
def encodeNameChar (c : Char) : Option Char :=
  if 65 ≤ c.toNat ∧ c.toNat ≤ 90 then some (Char.ofNat (c.toNat + 32))
  else if (97 ≤ c.toNat ∧ c.toNat ≤ 122) ∨ (48 ≤ c.toNat ∧ c.toNat ≤ 57) ∨
      c.toNat ∈ [33, 35, 36, 37, 38, 39, 42, 43, 45, 46, 94, 95, 96, 124, 126] then some c
  else none

/-- Encoding of a header name as in `HeaderName::from_bytes`: fails on the
empty string or on any non-token character, lowercases the rest. -/
def encodeHeaderName (s : String) : Option String :=
  if s.toList = [] then none
  else (s.toList.mapM encodeNameChar).map String.mk

/-- Validity of one header-value character as in `HeaderValue::from_str`:
tab, or any code point that is at least 32 and not 127 (bytes of non-ASCII
code points are all at least 128 and therefore acceptable value bytes). -/
def valueCharOk (c : Char) : Bool :=
  c.toNat == 9 || (32 ≤ c.toNat && c.toNat != 127)

/-- Encoding of a header value as in `HeaderValue::from_str`: the string
itself when every character is acceptable, failure otherwise. -/
def encodeHeaderValue (s : String) : Option String :=
  if s.toList.all valueCharOk then some s else none

/-- The header collection: a name-to-value association list with unique
keys, as in the specification's data model of `HeaderMap`. -/
abbrev HeaderMap := List (String × String)

/-- `HeaderMap::insert`: store `val` under `name`, overwriting (removing)
any earlier binding of `name`. -/
def hmInsert (name val : String) (m : HeaderMap) : HeaderMap :=
  m.filter (fun p => p.1 != name) ++ [(name, val)]

/-- Lookup in the header map. -/
def hmGet (m : HeaderMap) (name : String) : Option String :=
  (m.find? (fun p => p.1 == name)).map (fun p => p.2)

/-- Embedding of `build_headers`: fold the parsed pairs into the map,
inserting a pair only when both its name and its value encode, and skipping
it silently otherwise. -/
def build_headers (hs : List (String × String)) : HeaderMap :=
  hs.foldl
    (fun m kv =>
      match encodeHeaderName kv.1, encodeHeaderValue kv.2 with
      | some n, some v => hmInsert n v m
      | _, _ => m)
    []

lemma find?_filter_ne (m : HeaderMap) (n : String) :
    (m.filter (fun p => p.1 != n)).find? (fun p => p.1 == n) = none := by
  rw [List.find?_eq_none]
  intro p hp
  have hne := List.of_mem_filter hp
  rw [bne_iff_ne] at hne
  simp [hne]

lemma hmGet_insert_self (n v : String) (m : HeaderMap) :
    hmGet (hmInsert n v m) n = some v := by
  unfold hmGet hmInsert
  rw [List.find?_append, find?_filter_ne]
  simp [List.find?]

lemma find?_filter_of_ne (m : HeaderMap) (n n' : String) (h : n' ≠ n) :
    (m.filter (fun p => p.1 != n)).find? (fun p => p.1 == n') =
      m.find? (fun p => p.1 == n') := by
  induction m with
  | nil => rfl
  | cons p m ih =>
    by_cases hpn' : p.1 = n'
    · have h1 : (p.1 == n') = true := beq_iff_eq.mpr hpn'
      have h2 : (p.1 != n) = true := by
        simp [bne_iff_ne]
        exact fun hc => h (hpn' ▸ hc ▸ rfl)
      simp [List.filter_cons, h2, List.find?, h1]
    · have h1 : (p.1 == n') = false := beq_false_of_ne hpn'
      by_cases hpn : p.1 = n
      · have h2 : (p.1 != n) = false := by simp [bne_iff_ne, hpn]
        simp [List.filter_cons, h2, List.find?, h1, ih]
      · have h2 : (p.1 != n) = true := by simp [bne_iff_ne, hpn]
        simp [List.filter_cons, h2, List.find?, h1, ih]

lemma hmGet_insert_ne (n v n' : String) (m : HeaderMap) (h : n' ≠ n) :
    hmGet (hmInsert n v m) n' = hmGet m n' := by
  unfold hmGet hmInsert
  rw [List.find?_append, find?_filter_of_ne m n n' h]
  cases hf : m.find? (fun p => p.1 == n') with
  | some p => simp
  | none =>
    have : (n == n') = false := beq_false_of_ne (fun hc => h (hc ▸ rfl))
    simp [List.find?, this]

/-- Whether a parsed pair survives the two encoding checks of
`build_headers`. -/
def encodable (kv : String × String) : Bool :=
  (encodeHeaderName kv.1).isSome && (encodeHeaderValue kv.2).isSome

/-- Specification-side description of the retained value: the value of the
last pair in the input whose name encodes to `n` and whose value encodes
(none when there is no such pair). -/
def lastEncodedValue (hs : List (String × String)) (n : String) : Option String :=
  hs.foldl
    (fun acc kv =>
      match encodeHeaderName kv.1, encodeHeaderValue kv.2 with
      | some n', some v => if n' == n then some v else acc
      | _, _ => acc)
    none

lemma hmGet_build_headers_fold (hs : List (String × String)) (m : HeaderMap) (n : String) :
    hmGet
      (hs.foldl
        (fun m kv =>
          match encodeHeaderName kv.1, encodeHeaderValue kv.2 with
          | some n', some v => hmInsert n' v m
          | _, _ => m)
        m) n =
      hs.foldl
        (fun acc kv =>
          match encodeHeaderName kv.1, encodeHeaderValue kv.2 with
          | some n', some v => if n' == n then some v else acc
          | _, _ => acc)
        (hmGet m n) := by
  induction hs generalizing m with
  | nil => rfl
  | cons kv hs ih =>
    rw [List.foldl_cons, List.foldl_cons, ih]
    congr 1
    cases he : encodeHeaderName kv.1 with
    | none => simp [he]
    | some n' =>
      cases hv : encodeHeaderValue kv.2 with
      | none => simp [he, hv]
      | some v =>
        simp only [he, hv]
        by_cases hn : n' = n
        · subst hn
          rw [hmGet_insert_self]
          simp
        · rw [hmGet_insert_ne n' v n m (fun hc => hn hc.symm)]
          have : (n' == n) = false := beq_false_of_ne hn
          simp [this]

/-- In `build_headers` the retained value for each name is the last
encodable occurrence of that name in the input. -/
lemma hmGet_build_headers (hs : List (String × String)) (n : String) :
    hmGet (build_headers hs) n = lastEncodedValue hs n := by
  unfold build_headers lastEncodedValue
  rw [hmGet_build_headers_fold]
  rfl

lemma keys_nodup_hmInsert (n v : String) (m : HeaderMap)
    (hm : (m.map Prod.fst).Nodup) : ((hmInsert n v m).map Prod.fst).Nodup := by
  unfold hmInsert
  rw [List.map_append, List.nodup_append]
  refine ⟨?_, by simp, ?_⟩
  · exact (List.Sublist.map Prod.fst (List.filter_sublist m)).nodup hm
  · intro a ha hb
    simp only [List.map_cons, List.map_nil, List.mem_singleton] at hb
    subst hb
    rcases List.mem_map.mp ha with ⟨p, hp, hpa⟩
    have hne := List.of_mem_filter hp
    rw [bne_iff_ne] at hne
    exact hne hpa

lemma build_headers_fold_filter (hs : List (String × String)) (m : HeaderMap) :
    hs.foldl
      (fun m kv =>
        match encodeHeaderName kv.1, encodeHeaderValue kv.2 with
        | some n, some v => hmInsert n v m
        | _, _ => m)
      m =
    (hs.filter encodable).foldl
      (fun m kv =>
        match encodeHeaderName kv.1, encodeHeaderValue kv.2 with
        | some n, some v => hmInsert n v m
        | _, _ => m)
      m := by
  induction hs generalizing m with
  | nil => rfl
  | cons kv hs ih =>
    cases he : encodeHeaderName kv.1 with
    | none =>
      have : encodable kv = false := by simp [encodable, he]
      simp [List.filter_cons, this, he, ih]
    | some n =>
      cases hv : encodeHeaderValue kv.2 with
      | none =>
        have : encodable kv = false := by simp [encodable, he, hv]
        simp [List.filter_cons, this, he, hv, ih]
      | some v =>
        have : encodable kv = true := by simp [encodable, he, hv]
        simp [List.filter_cons, this, he, hv, ih]

/-- Entries that fail the encoding checks have no effect on the map. -/
lemma build_headers_filter (hs : List (String × String)) :
    build_headers hs = build_headers (hs.filter encodable) := by
  unfold build_headers
  exact build_headers_fold_filter hs []

lemma lastEncodedValue_isSome_mono (hs : List (String × String)) (n : String)
    (acc : Option String) (hacc : acc.isSome) :
    (hs.foldl
      (fun acc kv =>
        match encodeHeaderName kv.1, encodeHeaderValue kv.2 with
        | some n', some v => if n' == n then some v else acc
        | _, _ => acc)
      acc).isSome := by
  induction hs generalizing acc with
  | nil => exact hacc
  | cons kv hs ih =>
    rw [List.foldl_cons]
    apply ih
    cases he : encodeHeaderName kv.1 with
    | none => simpa [he] using hacc
    | some n' =>
      cases hv : encodeHeaderValue kv.2 with
      | none => simpa [he, hv] using hacc
      | some v =>
        by_cases hn : (n' == n) = true
        · simp [he, hv, hn]
        · simpa [he, hv, hn] using hacc

lemma lastEncodedValue_fold_isSome_of_mem (hs : List (String × String))
    (kv : String × String) (n v : String) (acc : Option String)
    (hmem : kv ∈ hs)
    (he : encodeHeaderName kv.1 = some n) (hv : encodeHeaderValue kv.2 = some v) :
    (hs.foldl
      (fun acc kv =>
        match encodeHeaderName kv.1, encodeHeaderValue kv.2 with
        | some n', some v' => if n' == n then some v' else acc
        | _, _ => acc)
      acc).isSome := by
  induction hs generalizing acc with
  | nil => cases hmem
  | cons kv' hs ih =>
    rw [List.foldl_cons]
    rcases List.mem_cons.mp hmem with hhead | htail
    · subst hhead
      apply lastEncodedValue_isSome_mono
      simp [he, hv]
    · exact ih _ htail

/-- A pair whose name and value both encode leaves a binding under its
encoded name in the final map (possibly a later occurrence's value). -/
lemma lastEncodedValue_isSome_of_mem (hs : List (String × String))
    (kv : String × String) (hmem : kv ∈ hs) (n v : String)
    (he : encodeHeaderName kv.1 = some n) (hv : encodeHeaderValue kv.2 = some v) :
    (lastEncodedValue hs n).isSome :=
  lastEncodedValue_fold_isSome_of_mem hs kv n v none hmem he hv

/-! ## Request construction (src/main.rs, fn main)

Each subcommand arm normalizes the URL, builds the header map, and for POST
and PUT chooses the body: when a file path is present its contents are read
(`fs::read(..).expect(..)` — a failed read aborts the invocation before any
network call) and wrapped as a single-part multipart body named "file";
otherwise, when raw data is present, the body is the raw string and the
`Content-Type: application/json` header is applied after the user headers;
otherwise there is no body.  The resulting descriptor is what is handed to
`send`. -/

/-- HTTP method of a subcommand. -/
inductive Method where
  | get
  | post
  | put
  | delete
deriving DecidableEq

/-- Request body: none, raw string data, or a file's bytes wrapped as the
single-part multipart form with part name "file". -/
inductive Body where
  | empty
  | raw (data : String)
  | fileUpload (content : List UInt8)
deriving DecidableEq

/-- The request descriptor handed to the transport's `send`. -/
structure Request where
  method : Method
  url : String
  headers : HeaderMap
  body : Body
deriving DecidableEq

/-- Fatal error of the request-construction path: the file read failed
(`fs::read(..).expect(..)` aborts the invocation). -/
inductive CliError where
  | fileReadError
deriving DecidableEq

/-- Modelled from the spec: the request builder's application of one
explicit header after the user header map (reqwest's
`RequestBuilder::header`, whose code is not part of this repository).  Per
the specification's header-collection model — a name-to-value mapping with
unique keys, last-write-wins — the explicit header applied after the user
headers overwrites any same-named user header. -/
def applyExplicitHeader (n v : String) (m : HeaderMap) : HeaderMap :=
  hmInsert n v m

/-- Embedding of the `Commands::Post` arm up to the `send` call: the
request descriptor built from the arguments, or the fatal file-read error.
The file system is passed as a function from paths to optional contents. -/
def postRequest (url : String) (data : Option String) (file : Option String)
    (readFile : String → Option (List UInt8)) (headers : List (String × String)) :
    Except CliError Request :=
  match file with
  | some filePath =>
    match readFile filePath with
    | none => Except.error CliError.fileReadError
    | some content =>
      Except.ok
        { method := Method.post, url := ensure_url_prefix url,
          headers := build_headers headers, body := Body.fileUpload content }
  | none =>
    match data with
    | some jsonData =>
      Except.ok
        { method := Method.post, url := ensure_url_prefix url,
          headers := applyExplicitHeader "content-type" "application/json" (build_headers headers),
          body := Body.raw jsonData }
    | none =>
      Except.ok
        { method := Method.post, url := ensure_url_prefix url,
          headers := build_headers headers, body := Body.empty }

/-- Embedding of the `Commands::Put` arm up to the `send` call; the arm is
the same as the POST arm with the PUT method. -/
def putRequest (url : String) (data : Option String) (file : Option String)
    (readFile : String → Option (List UInt8)) (headers : List (String × String)) :
    Except CliError Request :=
  match file with
  | some filePath =>
    match readFile filePath with
    | none => Except.error CliError.fileReadError
    | some content =>
      Except.ok
        { method := Method.put, url := ensure_url_prefix url,
          headers := build_headers headers, body := Body.fileUpload content }
  | none =>
    match data with
    | some jsonData =>
      Except.ok
        { method := Method.put, url := ensure_url_prefix url,
          headers := applyExplicitHeader "content-type" "application/json" (build_headers headers),
          body := Body.raw jsonData }
    | none =>
      Except.ok
        { method := Method.put, url := ensure_url_prefix url,
          headers := build_headers headers, body := Body.empty }

/-- Embedding of the `Commands::Get` arm up to the `send` call. -/
def getRequest (url : String) (headers : List (String × String)) : Request :=
  { method := Method.get, url := ensure_url_prefix url,
    headers := build_headers headers, body := Body.empty }

/-- Embedding of the `Commands::Delete` arm up to the `send` call. -/
def deleteRequest (url : String) (headers : List (String × String)) : Request :=
  { method := Method.delete, url := ensure_url_prefix url,
    headers := build_headers headers, body := Body.empty }

/-! ## Response presentation (src/main.rs, fn handle_response)

On success: the status line, the header lines and the decoded body go to
standard output; a body-decode failure goes to the diagnostic stream after
status and headers were already printed.  On transport failure: the error
message and its detailed (debug) form go to the diagnostic stream and
nothing goes to standard output. -/

/-- A transport-level failure, with its display form and its debug form
(the `{}` and `{:?}` renderings of `reqwest::Error`). -/
structure TransportErr where
  message : String
  details : String

/-- The response as consumed by the presenter: status line, headers in
received order, and the result of decoding the body as text. -/
structure ResponseView where
  status : String
  headers : List (String × String)
  text : Except String String

/-- The lines written to standard output and to the diagnostic stream. -/
structure OutputState where
  stdout : List String
  stderr : List String
deriving DecidableEq

/-- Embedding of `handle_response`. -/
def handle_response (response : Except TransportErr ResponseView) : OutputState :=
  match response with
  | Except.ok resp =>
    let head :=
      ("Статус: " ++ resp.status) ::
        "Заголовки ответа:" ::
          resp.headers.map (fun kv => kv.1 ++ ": " ++ kv.2)
    match resp.text with
    | Except.ok text => { stdout := head ++ ["Ответ:\n" ++ text], stderr := [] }
    | Except.error e => { stdout := head, stderr := ["Ошибка чтения ответа: " ++ e] }
  | Except.error e =>
    { stdout := [],
      stderr := ["Ошибка запроса: " ++ e.message ++ "\nДетали: " ++ e.details] }

/-- The POST arm end to end: build the request, abort on the fatal error,
otherwise hand the request to the transport's `send` and present the
outcome. -/
def runPost (url : String) (data : Option String) (file : Option String)
    (readFile : String → Option (List UInt8)) (headers : List (String × String))
    (send : Request → Except TransportErr ResponseView) : Except CliError OutputState :=
  match postRequest url data file readFile headers with
  | Except.error e => Except.error e
  | Except.ok req => Except.ok (handle_response (send req))

/-- The PUT arm end to end. -/
def runPut (url : String) (data : Option String) (file : Option String)
    (readFile : String → Option (List UInt8)) (headers : List (String × String))
    (send : Request → Except TransportErr ResponseView) : Except CliError OutputState :=
  match putRequest url data file readFile headers with
  | Except.error e => Except.error e
  | Except.ok req => Except.ok (handle_response (send req))

lemma build_headers_fold_keys_nodup (hs : List (String × String)) (m : HeaderMap)
    (hm : (m.map Prod.fst).Nodup) :
    ((hs.foldl
      (fun m kv =>
        match encodeHeaderName kv.1, encodeHeaderValue kv.2 with
        | some n, some v => hmInsert n v m
        | _, _ => m)
      m).map Prod.fst).Nodup := by
  induction hs generalizing m with
  | nil => exact hm
  | cons kv hs ih =>
    rw [List.foldl_cons]
    apply ih
    cases he : encodeHeaderName kv.1 with
    | none => simpa [he] using hm
    | some n =>
      cases hv : encodeHeaderValue kv.2 with
      | none => simpa [he, hv] using hm
      | some v =>
        simp only [he, hv]
        exact keys_nodup_hmInsert n v m hm

lemma keys_nodup_build_headers (hs : List (String × String)) :
    ((build_headers hs).map Prod.fst).Nodup := by
  unfold build_headers
  exact build_headers_fold_keys_nodup hs [] (by simp)

/-! ## Claims -/

/-- Claim C1: for POST and PUT with raw data and no file, the built request
carries `Content-Type: application/json`, and this value overrides any
same-named header supplied via `-H`, for every list of user headers. -/
theorem claim_C1_json_content_type_overrides (url d : String)
    (hs : List (String × String)) (rf : String → Option (List UInt8)) :
    (∃ req, postRequest url (some d) none rf hs = Except.ok req ∧
      hmGet req.headers "content-type" = some "application/json" ∧
      req.body = Body.raw d) ∧
    (∃ req, putRequest url (some d) none rf hs = Except.ok req ∧
      hmGet req.headers "content-type" = some "application/json" ∧
      req.body = Body.raw d) := by
  refine ⟨⟨_, rfl, ?_, rfl⟩, ⟨_, rfl, ?_, rfl⟩⟩ <;>
    exact hmGet_insert_self "content-type" "application/json" (build_headers hs)

/-- Claim C2 (counterexample): it is not the case that every accepted
header token yields a pair with non-empty name and value: `"=a"` is
accepted with an empty name. -/
theorem claim_C2_counterexample :
    ¬ (∀ (s k v : String), parse_key_val s = Except.ok (k, v) → k ≠ "" ∧ v ≠ "") := by
  intro h
  exact (h "=a" "" "a" rfl).1 rfl

/-- Claim C2 (amended): every token containing at least one `=` is accepted
by the parser — with possibly empty name or value components — and every
token with no `=` is rejected before request construction. -/
theorem claim_C2_amended_accepts_any_eq_token (s : String) :
    ('=' ∈ s.toList → ∃ kv, parse_key_val s = Except.ok kv) ∧
    ('=' ∉ s.toList → parse_key_val s = Except.error "Формат заголовка: ключ=значение") := by
  constructor
  · intro hmem
    cases h : splitFirstEq s.toList with
    | none => exact absurd hmem (by rwa [splitFirstEq_eq_none_iff] at h)
    | some kv =>
      obtain ⟨k, v⟩ := kv
      exact ⟨(String.mk k, String.mk v), by unfold parse_key_val; rw [h]⟩
  · intro hnot
    unfold parse_key_val
    rw [(splitFirstEq_eq_none_iff s.toList).mpr hnot]

/-- Witness for claim C2's amended theorem at the tokens `"a=b"` and
`"abc"`. -/
theorem claim_C2_witness :
    (∃ kv, parse_key_val "a=b" = Except.ok kv) ∧
    parse_key_val "abc" = Except.error "Формат заголовка: ключ=значение" :=
  ⟨(claim_C2_amended_accepts_any_eq_token "a=b").1 (by decide),
    (claim_C2_amended_accepts_any_eq_token "abc").2 (by decide)⟩

/-- Claim C3: parsing splits on the first `=` only — the name is the prefix
before the first `=` and the value everything after it — and a token with
no `=` fails with the argument error. -/
theorem claim_C3_splits_on_first_eq :
    (∀ a b : List Char, '=' ∉ a →
      parse_key_val (String.mk (a ++ '=' :: b)) = Except.ok (String.mk a, String.mk b)) ∧
    (∀ s : String, '=' ∉ s.toList →
      parse_key_val s = Except.error "Формат заголовка: ключ=значение") := by
  constructor
  · intro a b ha
    unfold parse_key_val
    have hlist : (String.mk (a ++ '=' :: b)).toList = a ++ '=' :: b := rfl
    rw [hlist, splitFirstEq_append a b ha]
  · intro s hs
    unfold parse_key_val
    rw [(splitFirstEq_eq_none_iff s.toList).mpr hs]

/-- Witness for claim C3 at `"a=b=c"` (split into `"a"` and `"b=c"`) and at
`"nope"` (rejected). -/
theorem claim_C3_witness :
    parse_key_val (String.mk (['a'] ++ '=' :: ['b', '=', 'c'])) =
      Except.ok (String.mk ['a'], String.mk ['b', '=', 'c']) ∧
    parse_key_val "nope" = Except.error "Формат заголовка: ключ=значение" :=
  ⟨claim_C3_splits_on_first_eq.1 ['a'] ['b', '=', 'c'] (by decide),
    claim_C3_splits_on_first_eq.2 "nope" (by decide)⟩

/-- Claim C4: the header-map construction yields a mapping with unique keys
in which the value bound to each name is the one of the last occurrence
among the encodable input pairs (each insertion overwrites). -/
theorem claim_C4_last_occurrence_wins (hs : List (String × String)) :
    (∀ n, hmGet (build_headers hs) n = lastEncodedValue hs n) ∧
    ((build_headers hs).map Prod.fst).Nodup :=
  ⟨fun n => hmGet_build_headers hs n, keys_nodup_build_headers hs⟩

/-- Claim C5: pairs that fail the header-name or header-value encoding are
dropped silently — the construction is total and their presence does not
change the map at all — while every encodable pair leaves a binding under
its encoded name in the resulting map. -/
theorem claim_C5_encode_failures_silently_dropped :
    (∀ hs, build_headers hs = build_headers (hs.filter encodable)) ∧
    (∀ hs kv, kv ∈ hs → ∀ n v,
      encodeHeaderName kv.1 = some n → encodeHeaderValue kv.2 = some v →
      (hmGet (build_headers hs) n).isSome) := by
  refine ⟨build_headers_filter, fun hs kv hmem n v he hv => ?_⟩
  rw [hmGet_build_headers]
  exact lastEncodedValue_isSome_of_mem hs kv hmem n v he hv

/-- Witness for claim C5: an invalidly named pair is dropped without effect
and a valid pair is retained. -/
theorem claim_C5_witness :
    build_headers [("bad name", "x")] = build_headers [] ∧
    (hmGet (build_headers [("User-Agent", "MyClient")]) "user-agent").isSome := by
  constructor
  · have h := claim_C5_encode_failures_silently_dropped.1 [("bad name", "x")]
    rw [h]
    decide
  · exact claim_C5_encode_failures_silently_dropped.2
      [("User-Agent", "MyClient")] ("User-Agent", "MyClient") (by decide)
      "user-agent" "MyClient" (by decide) (by decide)

/-- Claim C6: the URL normalizer keeps strings already starting with
`http://` or `https://` unchanged and otherwise prepends exactly `http://`;
every output starts with a scheme prefix and the normalizer is
idempotent. -/
theorem claim_C6_normalizer_idempotent (s : String) :
    ensure_url_prefix ( ensure_url_prefix s) = ensure_url_prefix s ∧
    ("http://".toList.isPrefixOf ( ensure_url_prefix s).toList = true ∨
      "https://".toList.isPrefixOf ( ensure_url_prefix s).toList = true) ∧
    ensure_url_prefix s =
      (if "http://".toList.isPrefixOf s.toList || "https://".toList.isPrefixOf s.toList then s
       else "http://" ++ s) := by
  by_cases h : ("http://".toList.isPrefixOf s.toList || "https://".toList.isPrefixOf s.toList) = true
  · have he : ensure_url_prefix s = s := by
      unfold ensure_url_prefix
      rw [if_pos h]
    refine ⟨by rw [he, he], ?_, by rw [he, if_pos h]⟩
    rw [he]
    rcases Bool.or_eq_true_iff.mp h with h1 | h2
    · exact Or.inl h1
    · exact Or.inr h2
  · have he : ensure_url_prefix s = "http://" ++ s := by
      unfold ensure_url_prefix
      rw [if_neg h]
    have hp : "http://".toList.isPrefixOf ("http://" ++ s).toList = true :=
      http_isPrefixOf_http_append s
    refine ⟨?_, by rw [he]; exact Or.inl hp, by rw [he, if_neg h]⟩
    rw [he]
    unfold ensure_url_prefix
    rw [if_pos (by rw [hp]; rfl)]

/-- Claim C7: for POST and PUT with both a file and raw data, the request
is built on the file-upload path — the body is the file's bytes as the
single-part multipart form, not the raw data — and the headers are exactly
the user headers, with no `application/json` content-type applied. -/
theorem claim_C7_file_takes_priority (url d p : String) (content : List UInt8)
    (hs : List (String × String)) (rf : String → Option (List UInt8))
    (hread : rf p = some content) :
    postRequest url (some d) (some p) rf hs =
      Except.ok { method := Method.post, url := ensure_url_prefix url,
                  headers := build_headers hs, body := Body.fileUpload content } ∧
    putRequest url (some d) (some p) rf hs =
      Except.ok { method := Method.put, url := ensure_url_prefix url,
                  headers := build_headers hs, body := Body.fileUpload content } ∧
    Body.fileUpload content ≠ Body.raw d := by
  refine ⟨?_, ?_, fun hc => Body.noConfusion hc⟩ <;> simp [postRequest, putRequest, hread]

/-- Witness for claim C7 with a two-byte file and raw data both supplied. -/
theorem claim_C7_witness :
    postRequest "example.com" (some "ignored") (some "file.txt")
        (fun _ => some [104, 105]) [] =
      Except.ok { method := Method.post, url := ensure_url_prefix "example.com",
                  headers := build_headers [], body := Body.fileUpload [104, 105] } :=
  (claim_C7_file_takes_priority "example.com" "ignored" "file.txt" [104, 105] []
      (fun _ => some [104, 105]) rfl).1

/-- Claim C8: for POST and PUT with a file path whose read fails, the
invocation aborts with the file-read error: the end-to-end arm returns the
fatal error for every transport, and no request descriptor is ever
produced for `send`. -/
theorem claim_C8_file_read_failure_aborts (url : String) (d : Option String) (p : String)
    (hs : List (String × String)) (rf : String → Option (List UInt8))
    (send : Request → Except TransportErr ResponseView)
    (hread : rf p = none) :
    runPost url d (some p) rf hs send = Except.error CliError.fileReadError ∧
    runPut url d (some p) rf hs send = Except.error CliError.fileReadError ∧
    (∀ req, ¬ postRequest url d (some p) rf hs = Except.ok req) ∧
    (∀ req, ¬ putRequest url d (some p) rf hs = Except.ok req) := by
  have hpost : postRequest url d (some p) rf hs = Except.error CliError.fileReadError := by
    simp [postRequest, hread]
  have hput : putRequest url d (some p) rf hs = Except.error CliError.fileReadError := by
    simp [putRequest, hread]
  refine ⟨by simp [runPost, hpost], by simp [runPut, hput], ?_, ?_⟩
  · intro req hok
    rw [hpost] at hok
    cases hok
  · intro req hok
    rw [hput] at hok
    cases hok

/-- Witness for claim C8 at a missing file, with an arbitrary transport. -/
theorem claim_C8_witness :
    runPost "example.com" none (some "missing.txt") (fun _ => none) []
        (fun _ => Except.error { message := "t", details := "t" }) =
      Except.error CliError.fileReadError :=
  (claim_C8_file_read_failure_aborts "example.com" none "missing.txt" [] (fun _ => none)
      (fun _ => Except.error { message := "t", details := "t" }) rfl).1

/-- Claim C9: on every transport-level failure the presenter writes the
error message and its detailed form to the diagnostic stream and nothing to
standard output; the success branch is the one that writes to standard
output (starting with the status line). -/
theorem claim_C9_transport_failure_diagnostic_only :
    (∀ e : TransportErr,
      (handle_response (Except.error e)).stdout = [] ∧
      (handle_response (Except.error e)).stderr =
        ["Ошибка запроса: " ++ e.message ++ "\nДетали: " ++ e.details]) ∧
    (∀ resp : ResponseView,
      (handle_response (Except.ok resp)).stdout.take 1 = ["Статус: " ++ resp.status]) := by
  constructor
  · intro e
    exact ⟨rfl, rfl⟩
  · intro resp
    unfold handle_response
    cases htext : resp.text with
    | ok t => simp [htext]
    | error e => simp [htext]

/-- Claim C10: the scheme check of the URL normalizer is byte-wise
case-sensitive: for every string whose scheme prefix lowercases to
`http://` (resp. `https://`) without being that lowercase literal itself,
the string is not treated as already prefixed and `http://` is prepended
again, producing a doubly-prefixed result such as
`http://HTTP://example.com`. -/
theorem claim_C10_scheme_check_case_sensitive :
    (∀ p t : List Char, p.map Char.toLower = "http://".toList → p ≠ "http://".toList →
      ensure_url_prefix (String.mk (p ++ t)) = "http://" ++ String.mk (p ++ t)) ∧
    (∀ p t : List Char, p.map Char.toLower = "https://".toList → p ≠ "https://".toList →
      ensure_url_prefix (String.mk (p ++ t)) = "http://" ++ String.mk (p ++ t)) ∧
    ensure_url_prefix "HTTP://example.com" = "http://HTTP://example.com" := by
  have hlen7 : ("http://".toList).length = 7 := by decide
  have hlen8 : ("https://".toList).length = 8 := by decide
  refine ⟨?_, ?_, by decide⟩
  · intro p t hl hne
    have hplen : p.length = 7 := by
      have h := congrArg List.length hl
      rw [List.length_map] at h
      simpa using h
    have ha : ¬ ("http://".toList.isPrefixOf (p ++ t) = true) := by
      intro hc
      have heq : "http://".toList = p.take ("http://".toList).length :=
        isPrefixOf_append_take _ p t hc (by rw [hplen, hlen7])
      rw [hlen7, ← hplen, List.take_length] at heq
      exact hne heq.symm
    have hb : ¬ ("https://".toList.isPrefixOf (p ++ t) = true) := by
      intro hc
      have hp : p = ("https://".toList).take p.length :=
        append_left_eq_take _ p t hc (by rw [hplen, hlen8]; exact Nat.le_succ 7)
      rw [hplen] at hp
      rw [hp] at hl
      exact absurd hl (by decide)
    have hcond :
        ¬ (("http://".toList.isPrefixOf (String.mk (p ++ t)).toList ||
            "https://".toList.isPrefixOf (String.mk (p ++ t)).toList) = true) := by
      intro hc
      rcases Bool.or_eq_true_iff.mp hc with h | h
      · exact ha h
      · exact hb h
    unfold ensure_url_prefix
    rw [if_neg hcond]
  · intro p t hl hne
    have hplen : p.length = 8 := by
      have h := congrArg List.length hl
      rw [List.length_map] at h
      simpa using h
    have ha : ¬ ("http://".toList.isPrefixOf (p ++ t) = true) := by
      intro hc
      have h7 : "http://".toList = p.take ("http://".toList).length :=
        isPrefixOf_append_take _ p t hc (by rw [hplen, hlen7]; exact Nat.le_succ 7)
      rw [hlen7] at h7
      have hmap : "http://".toList.map Char.toLower = ("https://".toList).take 7 := by
        rw [h7, List.map_take, hl]
      exact absurd hmap (by decide)
    have hb : ¬ ("https://".toList.isPrefixOf (p ++ t) = true) := by
      intro hc
      have heq : "https://".toList = p.take ("https://".toList).length :=
        isPrefixOf_append_take _ p t hc (by rw [hplen, hlen8])
      rw [hlen8, ← hplen, List.take_length] at heq
      exact hne heq.symm
    have hcond :
        ¬ (("http://".toList.isPrefixOf (String.mk (p ++ t)).toList ||
            "https://".toList.isPrefixOf (String.mk (p ++ t)).toList) = true) := by
      intro hc
      rcases Bool.or_eq_true_iff.mp hc with h | h
      · exact ha h
      · exact hb h
    unfold ensure_url_prefix
    rw [if_neg hcond]

/-- Witness for claim C10 at the case-variant scheme `"HTTP://"`: the
normalizer prepends `http://` again. -/
theorem claim_C10_witness :
    ensure_url_prefix (String.mk ("HTTP://".toList ++ "example.com".toList)) =
      "http://" ++ String.mk ("HTTP://".toList ++ "example.com".toList) :=
  claim_C10_scheme_check_case_sensitive.1 "HTTP://".toList "example.com".toList
    (by decide) (by decide)

end HttpClientCLI
